import Mathlib

/-
  Verification of the asynchronous command-execution subsystem of the
  deployar repository (executor.go, storage.go, models.go, handlers.go).

  Shallow embedding conventions:
  * Go `time.Time` values are modelled as `Nat` instants (nanoseconds);
    `time.Time.Before` is `<` on `Nat`.
  * Go strings are Lean `String`s.
  * Go `map[string]*Execution` is modelled as an association list
    `List (String × Execution)`; Go map assignment `m[k] = v` is `insertExec`,
    `delete(m, k)` is a key filter, lookup is `lookup`.
  * The pointer structure of Go (the goroutine and the map share one
    `*Execution`) is modelled by having the completion step re-insert the
    updated record under its id, which is exactly what runCommand's
    `e.executions[execution.ID] = execution` (executor.go line 96) does
    whether or not the entry is still present.
  * `storage.SaveExecutions` can fail; every call site in executor.go
    discards the error, so each engine operation takes a `saveOk : Bool`
    parameter describing whether that save succeeded, and the engine state
    carries the last successfully persisted snapshot in `persisted`.
  * Nondeterministic inputs of the Go code (uuid.New, time.Now, the child
    process outcome) are explicit parameters.
-/

/-- The `Execution` struct of models.go: one command-execution record.
`commandID`, `name`, `endedAt`, `duration`, `executedBy` use Go zero values
(`""` / `0`) for absence, exactly as the Go struct does in memory. -/
structure Execution where
  id : String
  commandID : String
  name : String
  workdir : String
  command : String
  status : String
  output : String
  exitCode : Int
  executedBy : String
  startedAt : Nat
  endedAt : Nat
  duration : String
deriving DecidableEq, Repr

/-- The `ExecuteRequest` struct of models.go. -/
structure ExecuteRequest where
  workdir : String
  command : String
deriving DecidableEq, Repr

/-- The `ExecuteResponse` struct of models.go. -/
structure ExecuteResponse where
  execution_id : String
  status : String
  message : String
deriving DecidableEq, Repr

/-- Outcome of `cmd.Run()` in runCommand (executor.go line 66), i.e. the
value of `err` as the code dispatches on it:
* `success`      — `err == nil`: the process ran and exited with code 0;
* `exitError c`  — `err` is an `*exec.ExitError`: the process ran and exited
                   with nonzero status; `c` is `exitErr.ExitCode()`;
* `launchError m` — any other non-nil `err`: the process could not be
                   launched; `m` is the text of `err`. -/
inductive RunResult where
  | success : RunResult
  | exitError (code : Int) : RunResult
  | launchError (msg : String) : RunResult
deriving DecidableEq, Repr

/-- Lines 72–79 of executor.go: combine captured stdout and stderr.
```go
output := stdout.String()
if stderr.Len() > 0 {
    if len(output) > 0 { output += "\n" }
    output += stderr.String()
}
```
-/
def combineOutput (stdout stderr : String) : String :=
  let output := stdout
  if stderr.length > 0 then
    (if output.length > 0 then output ++ "\n" else output) ++ stderr
  else
    output

/-- Models Go's `time.Duration.String()` rendering of
`endedAt - startedAt` (executor.go line 70). No claim depends on the
rendering itself, only on the subtraction being taken at completion time;
the instant difference is rendered at nanosecond granularity. -/
def formatDuration (n : Nat) : String := toString n ++ "ns"

/-- Lines 69–93 of executor.go: the field updates runCommand performs on the
execution record once `cmd.Run()` has returned.
```go
execution.EndedAt = time.Now()
execution.Duration = execution.EndedAt.Sub(execution.StartedAt).String()
... (combine output) ...
execution.Output = output
if err != nil {
    execution.Status = "failed"
    if exitErr, ok := err.(*exec.ExitError); ok {
        execution.ExitCode = exitErr.ExitCode()
    } else {
        execution.ExitCode = 1
        execution.Output += fmt.Sprintf("\nError: %v", err)
    }
} else {
    execution.Status = "success"
    execution.ExitCode = 0
}
```
-/
def runCommandUpdate (ex : Execution) (res : RunResult) (stdout stderr : String)
    (endTime : Nat) : Execution :=
  let ex1 := { ex with
    endedAt := endTime
    duration := formatDuration (endTime - ex.startedAt)
    output := combineOutput stdout stderr }
  match res with
  | RunResult.success => { ex1 with status := "success", exitCode := 0 }
  | RunResult.exitError code => { ex1 with status := "failed", exitCode := code }
  | RunResult.launchError msg =>
      { ex1 with status := "failed", exitCode := 1,
                 output := ex1.output ++ "\nError: " ++ msg }

/-- Association-list lookup, modelling Go's `m[k]` read on
`map[string]*Execution`. -/
def lookup (m : List (String × Execution)) (k : String) : Option Execution :=
  (m.find? (fun p => p.1 == k)).map (fun p => p.2)

/-- Go map assignment `m[k] = v`: replaces the binding for `k` if present,
otherwise adds one. -/
def insertExec (m : List (String × Execution)) (k : String) (v : Execution) :
    List (String × Execution) :=
  if m.any (fun p => p.1 == k) then
    m.map (fun p => if p.1 == k then (k, v) else p)
  else
    m ++ [(k, v)]

/-- Go `delete(m, k)`. -/
def eraseExec (m : List (String × Execution)) (k : String) :
    List (String × Execution) :=
  m.filter (fun p => !(p.1 == k))

/-- The in-memory state of the `Executor` (executor.go lines 13–17) together
with the persistence collaborator's durable content:
* `executions` — the `executions map[string]*Execution` field;
* `pending`    — the records captured by goroutines spawned with
                 `go e.runCommand(execution)` (line 50) that have not yet run
                 to completion; each entry pairs the execution id with the
                 record value handed to the goroutine;
* `persisted`  — the snapshot most recently written successfully by
                 `storage.SaveExecutions`. -/
structure EngineState where
  executions : List (String × Execution)
  pending : List (String × Execution)
  persisted : List (String × Execution)
deriving DecidableEq, Repr

/-- Fresh engine state of a first run: `LoadExecutions` returns an empty
mapping and nothing is in flight. -/
def initState : EngineState :=
  { executions := [], pending := [], persisted := [] }

/-- The record literal built at lines 34–43 of executor.go: a fresh record
with status `"running"`, `StartedAt = now` and zero-valued terminal fields. -/
def mkRunningExec (newId : String) (now : Nat)
    (workdir command commandID commandName username : String) : Execution :=
  { id := newId
    commandID := commandID
    name := commandName
    workdir := workdir
    command := command
    status := "running"
    output := ""
    exitCode := 0
    executedBy := username
    startedAt := now
    endedAt := 0
    duration := "" }

/-- Lines 33–53 of executor.go, `Executor.Execute`: build the record with a
fresh id (`newId` stands for `uuid.New().String()`), status `"running"`,
`StartedAt = now` (`time.Now()`), store it and save the snapshot; the spawned
goroutine is modelled separately in `step`. The Go code discards the error of
`SaveExecutions` (line 47), so when `saveOk` is false the durable snapshot
keeps its prior value and the caller is not told. `Execute` always returns a
nil error in the source, so the record itself is the whole result. -/
def Execute (st : EngineState) (newId : String) (now : Nat)
    (workdir command commandID commandName username : String)
    (saveOk : Bool) : Execution × EngineState :=
  let ex := mkRunningExec newId now workdir command commandID commandName username
  let m := insertExec st.executions newId ex
  (ex, { st with
          executions := m
          persisted := if saveOk then m else st.persisted })

/-- Lines 56–98 of executor.go, `Executor.runCommand`: update the captured
record's terminal fields (`runCommandUpdate`), write it back into the map
under its id (line 96 — this re-inserts the record even if it was deleted or
cleared while the process ran), and save the snapshot, again discarding the
save error (line 97). -/
def runCommand (st : EngineState) (ex : Execution) (res : RunResult)
    (stdout stderr : String) (endTime : Nat) (saveOk : Bool) : EngineState :=
  let ex2 := runCommandUpdate ex res stdout stderr endTime
  let m := insertExec st.executions ex2.id ex2
  { st with
    executions := m
    persisted := if saveOk then m else st.persisted }

/-- Lines 100–104 of executor.go, `Executor.GetExecution`. -/
def GetExecution (st : EngineState) (id : String) : Option Execution :=
  lookup st.executions id

/-- Lines 134–142 of executor.go, `Executor.DeleteExecution`: returns whether
the record existed; on existence it deletes and saves, discarding the save
error (line 140). -/
def DeleteExecution (st : EngineState) (id : String) (saveOk : Bool) :
    Bool × EngineState :=
  if (lookup st.executions id).isSome then
    let m := eraseExec st.executions id
    (true, { st with
              executions := m
              persisted := if saveOk then m else st.persisted })
  else
    (false, st)

/-- Lines 144–148 of executor.go, `Executor.ClearExecutions`: replaces the map
with a fresh empty one and saves, discarding the save error (line 147). -/
def ClearExecutions (st : EngineState) (saveOk : Bool) : EngineState :=
  { st with
    executions := []
    persisted := if saveOk then [] else st.persisted }

/-- Lines 150–159 of executor.go, `ValidateCommand`: `some msg` models the
non-nil `error` return. Go's `strings.TrimSpace` is modelled by
`String.trim` (both strip surrounding whitespace). -/
def ValidateCommand (workdir command : String) : Option String :=
  if command.trim = "" then some "command cannot be empty"
  else if workdir.trim = "" then some "workdir cannot be empty"
  else none

/-- Lines 44–70 of handlers.go, `ExecuteHandler`, after the request body has
been decoded: validate, and only on success call `Execute` and answer with an
`ExecuteResponse`. The `Except.error` side models the HTTP 400 response
carrying the validation message; the state component is the engine state
after the handler. -/
def ExecuteHandler (st : EngineState) (newId : String) (now : Nat)
    (req : ExecuteRequest) (username : String) (saveOk : Bool) :
    Except String ExecuteResponse × EngineState :=
  match ValidateCommand req.workdir req.command with
  | some msg => (Except.error msg, st)
  | none =>
      let r := Execute st newId now req.workdir req.command "" "" username saveOk
      (Except.ok { execution_id := r.1.id
                   status := r.1.status
                   message := "Command execution started" }, r.2)

/-- Whether an `Except` result is the error side (the HTTP 400 path). -/
def isErrResult (r : Except String ExecuteResponse) : Bool :=
  match r with
  | Except.error _ => true
  | Except.ok _ => false

/-- Inner loop of the sort in `GetAllExecutions` (executor.go lines 115–119):
scanning positions `i+1 … n-1` with current value `x` at position `i`,
swapping whenever `execList[i].StartedAt.Before(execList[j].StartedAt)`.
Returns the final value at position `i` together with the final contents of
positions `i+1 … n-1`. -/
def innerStep (x : Execution) : List Execution → Execution × List Execution
  | [] => (x, [])
  | y :: ys =>
      if x.startedAt < y.startedAt then
        let r := innerStep y ys
        (r.1, x :: r.2)
      else
        let r := innerStep x ys
        (r.1, y :: r.2)

/-- Outer loop of the sort in `GetAllExecutions` (executor.go lines 114–120):
after the inner pass, position `i` holds the maximum of the remaining segment
and the algorithm continues on positions `i+1 … n-1`. The recursion is
structural on a fuel argument; `exchSort` supplies fuel equal to the list
length, which is exactly the number of outer iterations needed (the Go loop
runs `len-1` iterations; the extra iteration on a singleton is the identity,
and the zero-fuel case is unreachable from `exchSort`). -/
def exchSortFuel : Nat → List Execution → List Execution
  | _, [] => []
  | 0, x :: xs => x :: xs
  | Nat.succ n, x :: xs =>
      let r := innerStep x xs
      r.1 :: exchSortFuel n r.2

/-- The full double loop of `GetAllExecutions` (executor.go lines 114–120). -/
def exchSort (l : List Execution) : List Execution :=
  exchSortFuel l.length l

/-- Lines 106–123 of executor.go, `Executor.GetAllExecutions`: collect the
map's values and sort them with the double loop so that the most recently
started record comes first. (Go map iteration order is unspecified; the
association-list order stands in for one iteration order, and the sort makes
the result ordered by `startedAt` regardless.) -/
def GetAllExecutions (st : EngineState) : List Execution :=
  exchSort (st.executions.map (fun p => p.2))

/-- Lines 125–132 of executor.go, `Executor.GetRecentExecutions`:
```go
all := e.GetAllExecutions()
if len(all) <= limit { return all }
return all[:limit]
```
`limit` is a Go `int`, so it may be negative. The slice expression
`all[:limit]` panics when `limit` is outside `0 ≤ limit ≤ cap(all)`
(`cap(all) = len(all)` here); `none` models that runtime panic. In the branch
where the slice is taken, `limit < len(all)`, so the slice is in bounds
exactly when `0 ≤ limit`. -/
def GetRecentExecutions (st : EngineState) (limit : Int) :
    Option (List Execution) :=
  let all := GetAllExecutions st
  if (all.length : Int) ≤ limit then some all
  else if 0 ≤ limit then some (all.take limit.toNat)
  else none

/-- The JSON object that `encoding/json` produces for one `Execution`
(models.go struct tags):
* `command_id,omitempty` and `duration,omitempty` are string fields, so they
  are omitted exactly when the value is the empty string (`none` models an
  absent member);
* `name`, `workdir`, `command`, `status`, `output`, `exit_code`,
  `executed_by`, `started_at` carry no effective omission: `name` has no
  `omitempty` tag at all;
* `ended_at` is tagged `omitempty`, but Go's `omitempty` never treats a
  struct value such as `time.Time` as empty, so the member is always
  emitted — it is therefore a plain field here. -/
structure EncodedExecution where
  id : String
  command_id : Option String
  name : String
  workdir : String
  command : String
  status : String
  output : String
  exit_code : Int
  executed_by : String
  started_at : Nat
  ended_at : Nat
  duration : Option String
deriving DecidableEq, Repr

/-- Serialization (`json.MarshalIndent`) of a single record (storage.go `SaveExecutions`,
part: serializing one map value), following the struct tags of models.go. -/
def encodeExec (e : Execution) : EncodedExecution :=
  { id := e.id
    command_id := if e.commandID = "" then none else some e.commandID
    name := e.name
    workdir := e.workdir
    command := e.command
    status := e.status
    output := e.output
    exit_code := e.exitCode
    executed_by := e.executedBy
    started_at := e.startedAt
    ended_at := e.endedAt
    duration := if e.duration = "" then none else some e.duration }

/-- Deserialization (`json.Unmarshal`) of a single record (storage.go `LoadExecutions`): an
absent member leaves the Go zero value in place. -/
def decodeExec (o : EncodedExecution) : Execution :=
  { id := o.id
    commandID := o.command_id.getD ""
    name := o.name
    workdir := o.workdir
    command := o.command
    status := o.status
    output := o.output
    exitCode := o.exit_code
    executedBy := o.executed_by
    startedAt := o.started_at
    endedAt := o.ended_at
    duration := o.duration.getD "" }

/-- storage.go lines 192–202, `Storage.SaveExecutions`: serialize the whole
mapping (each entry as a JSON member keyed by the execution id) and write it
to executions.json wholesale. The durable content is modelled as the list of
encoded entries. -/
def SaveExecutions (m : List (String × Execution)) :
    List (String × EncodedExecution) :=
  m.map (fun p => (p.1, encodeExec p.2))

/-- storage.go lines 205–225, `Storage.LoadExecutions`: parse the stored JSON
back into a `map[string]*Execution`. -/
def LoadExecutions (d : List (String × EncodedExecution)) :
    List (String × Execution) :=
  d.map (fun p => (p.1, decodeExec p.2))

/-- Events driving the engine state machine. Each constructor carries the
nondeterministic inputs of the corresponding Go code path:
* `submit`   — a call of `Executor.Execute` (executor.go lines 33–53);
  `newId` is the value of `uuid.New().String()`, `now` of `time.Now()`,
  `saveOk` whether the immediate `SaveExecutions` succeeded; the spawned
  goroutine is recorded in `pending`;
* `complete` — the goroutine of the execution with this id finishes
  `cmd.Run()` and executes runCommand's update (lines 56–98); a no-op if no
  such goroutine is in flight;
* `deleteOp` — a call of `Executor.DeleteExecution`;
* `clearOp`  — a call of `Executor.ClearExecutions`. -/
inductive Event where
  | submit (newId : String) (now : Nat)
      (workdir command commandID commandName username : String)
      (saveOk : Bool) : Event
  | complete (id : String) (res : RunResult) (stdout stderr : String)
      (endTime : Nat) (saveOk : Bool) : Event
  | deleteOp (id : String) (saveOk : Bool) : Event
  | clearOp (saveOk : Bool) : Event
deriving DecidableEq, Repr

/-- One step of the engine: dispatch an event to the operation it models.
For `submit`, the `go e.runCommand(execution)` statement (line 50) is
modelled by appending the captured record to `pending`. For `complete`, the
goroutine's captured record is taken out of `pending`; the ids are unique per
goroutine, so the first match is the goroutine's record. -/
def step (st : EngineState) : Event → EngineState
  | Event.submit newId now wd cmd cid cname user saveOk =>
      let r := Execute st newId now wd cmd cid cname user saveOk
      { r.2 with pending := st.pending ++ [(newId, r.1)] }
  | Event.complete id res so se t saveOk =>
      match (st.pending.find? (fun p => p.1 == id)) with
      | some pr =>
          let st1 := { st with
            pending := st.pending.filter (fun p => !(p.1 == id)) }
          runCommand st1 pr.2 res so se t saveOk
      | none => st
  | Event.deleteOp id saveOk => (DeleteExecution st id saveOk).2
  | Event.clearOp saveOk => ClearExecutions st saveOk

/-- Run a sequence of events from a starting state. -/
def runTrace (st : EngineState) (t : List Event) : EngineState :=
  t.foldl step st

/-- The ids generated for the submissions of a trace, in order. -/
def submitIds : List Event → List String
  | [] => []
  | Event.submit newId _ _ _ _ _ _ _ :: rest => newId :: submitIds rest
  | _ :: rest => submitIds rest

/-- A trace is valid when its submissions carry pairwise distinct fresh ids —
the guarantee `uuid.New()` provides in the source. -/
def ValidTrace (t : List Event) : Prop := (submitIds t).Nodup

instance (t : List Event) : Decidable (ValidTrace t) := by
  unfold ValidTrace
  infer_instance

/-- The status a reader polling `GetExecution` observes for `id`. -/
def statusOf (st : EngineState) (id : String) : Option String :=
  (lookup st.executions id).map (fun e => e.status)

/-- The two terminal statuses of the record state machine. -/
def isTerminalStatus (s : String) : Bool := s == "success" || s == "failed"

/-- Keys of the execution map. -/
def execKeys (st : EngineState) : List String :=
  st.executions.map (fun p => p.1)

/-- Ids of the goroutines currently in flight. -/
def pendingIds (st : EngineState) : List String :=
  st.pending.map (fun p => p.1)

/-- Derived invariant of the engine: every key in the map or in flight stems
from a submission of the trace; every in-flight record's `id` field agrees
with its key; and a record observed with a terminal status has no goroutine
still in flight for it. -/
def TraceInv (st : EngineState) (used : List String) : Prop :=
  (∀ k, k ∈ execKeys st → k ∈ used) ∧
  (∀ k, k ∈ pendingIds st → k ∈ used) ∧
  (∀ p, p ∈ st.pending → p.2.id = p.1) ∧
  (∀ k e, lookup st.executions k = some e →
      isTerminalStatus e.status = true → k ∉ pendingIds st)

/-- Concrete terminal record (started at instant 1) for concrete witnesses. -/
def exA : Execution :=
  { id := "a", commandID := "", name := "", workdir := "/w", command := "c1",
    status := "success", output := "done", exitCode := 0, executedBy := "u",
    startedAt := 1, endedAt := 2, duration := "1ns" }

/-- Concrete terminal record started later (instant 5). -/
def exB : Execution :=
  { id := "b", commandID := "", name := "", workdir := "/w", command := "c2",
    status := "failed", output := "", exitCode := 2, executedBy := "u",
    startedAt := 5, endedAt := 7, duration := "2ns" }

/-- Concrete store holding two records, for the listing witness. -/
def stC6 : EngineState :=
  { executions := [("a", exA), ("b", exB)], pending := [], persisted := [] }

/-- Concrete store holding one record, persisted, for the persistence-failure
counterexample. -/
def stC9 : EngineState :=
  { executions := [("a", exA)], pending := [], persisted := [("a", exA)] }

/-- Concrete trace: one submission that completes successfully. -/
def c2t1 : List Event :=
  [Event.submit "a" 0 "/w" "true" "" "" "u" true,
   Event.complete "a" RunResult.success "ok" "" 5 true]

/-- Concrete trace continuation: an unrelated delete. -/
def c2t2 : List Event := [Event.deleteOp "b" true]

/-- Concrete trace prefix: one submission, then a clear-all while the
submitted command is still running. -/
def c7pre : List Event :=
  [Event.submit "a" 0 "/w" "sleep 5" "" "" "u" true,
   Event.clearOp true]

/-- The same trace continued by the completion of the pre-clear execution. -/
def c7trace : List Event :=
  c7pre ++ [Event.complete "a" RunResult.success "" "" 9 true]

theorem lookup_map_update_self (m : List (String × Execution)) (k : String)
    (v : Execution) (h : m.any (fun p => p.1 == k) = true) :
    lookup (m.map (fun p => if p.1 == k then (k, v) else p)) k = some v := by
  induction m with
  | nil => simp at h
  | cons p t ih =>
      by_cases hp : p.1 == k
      · simp [lookup, List.find?, hp]
      · simp only [List.any_cons, Bool.or_eq_true] at h
        rcases h with h | h
        · exact absurd h hp
        · simpa [lookup, List.find?, hp] using ih h

theorem lookup_map_update_ne (m : List (String × Execution)) (k1 k2 : String)
    (v : Execution) (h : k1 ≠ k2) :
    lookup (m.map (fun p => if p.1 == k1 then (k1, v) else p)) k2 =
      lookup m k2 := by
  induction m with
  | nil => simp [lookup]
  | cons p t ih =>
      by_cases hp : p.1 == k1
      · have hpk : p.1 = k1 := by simpa using hp
        have hk2 : (k1 == k2) = false := by simp; exact h
        have hpq : (p.1 == k2) = false := by simp [hpk]; exact h
        simpa [lookup, List.find?, hp, hk2, hpq] using ih
      · by_cases hq : p.1 == k2
        · simp [lookup, List.find?, hp, hq]
        · simpa [lookup, List.find?, hp, hq] using ih

theorem lookup_append_one_self (m : List (String × Execution)) (k : String)
    (v : Execution) (h : m.any (fun p => p.1 == k) = false) :
    lookup (m ++ [(k, v)]) k = some v := by
  induction m with
  | nil => simp [lookup, List.find?]
  | cons p t ih =>
      simp only [List.any_cons, Bool.or_eq_false_iff] at h
      simpa [lookup, List.find?, h.1] using ih h.2

theorem lookup_append_one_ne (m : List (String × Execution)) (k1 k2 : String)
    (v : Execution) (h : k1 ≠ k2) :
    lookup (m ++ [(k1, v)]) k2 = lookup m k2 := by
  induction m with
  | nil =>
      have hk2 : (k1 == k2) = false := by simpa using h
      simp [lookup, List.find?, hk2]
  | cons p t ih =>
      by_cases hq : p.1 == k2
      · simp [lookup, List.find?, hq]
      · simpa [lookup, List.find?, hq] using ih

theorem lookup_insertExec_self (m : List (String × Execution)) (k : String)
    (v : Execution) : lookup (insertExec m k v) k = some v := by
  unfold insertExec
  split
  · exact lookup_map_update_self m k v (by assumption)
  · rename_i hany
    simp only [Bool.not_eq_true] at hany
    exact lookup_append_one_self m k v hany

theorem lookup_insertExec_ne (m : List (String × Execution)) (k1 k2 : String)
    (v : Execution) (h : k1 ≠ k2) :
    lookup (insertExec m k1 v) k2 = lookup m k2 := by
  unfold insertExec
  split
  · exact lookup_map_update_ne m k1 k2 v h
  · exact lookup_append_one_ne m k1 k2 v h

theorem lookup_eraseExec_self (m : List (String × Execution)) (k : String) :
    lookup (eraseExec m k) k = none := by
  induction m with
  | nil => simp [eraseExec, lookup]
  | cons p t ih =>
      by_cases hp : p.1 == k
      · simp only [eraseExec, List.filter, hp, Bool.not_true] at ih ⊢
        simp [eraseExec, lookup]
      · simp only [eraseExec, List.filter, hp, Bool.not_false, lookup,
          List.find?] at ih ⊢
        simp [eraseExec, lookup, List.find?, hp]

theorem lookup_eraseExec_ne (m : List (String × Execution)) (k1 k2 : String)
    (h : k1 ≠ k2) : lookup (eraseExec m k1) k2 = lookup m k2 := by
  induction m with
  | nil => simp [eraseExec, lookup]
  | cons p t ih =>
      by_cases hp : p.1 == k1
      · have hpk : p.1 = k1 := by simpa using hp
        have hq : (p.1 == k2) = false := by
          simp [hpk]
          simpa using h
        simp [eraseExec, lookup, List.find?, hp, hq] at ih ⊢
        simpa [eraseExec, lookup] using ih
      · by_cases hq : p.1 == k2
        · simp [eraseExec, lookup, List.find?, hp, hq]
        · simp only [eraseExec, List.filter, hp, Bool.not_false, lookup,
            List.find?, hq] at ih ⊢
          simpa [eraseExec, lookup] using ih

theorem innerStep_snd_length (x : Execution) (l : List Execution) :
    (innerStep x l).2.length = l.length := by
  induction l generalizing x with
  | nil => simp [innerStep]
  | cons y ys ih =>
      by_cases h : x.startedAt < y.startedAt <;> simp [innerStep, h, ih]

theorem innerStep_perm (x : Execution) (l : List Execution) :
    List.Perm ((innerStep x l).1 :: (innerStep x l).2) (x :: l) := by
  induction l generalizing x with
  | nil => simp [innerStep]
  | cons y ys ih =>
      by_cases h : x.startedAt < y.startedAt
      · simp only [innerStep, h, if_pos]
        exact (List.Perm.swap x (innerStep y ys).1 (innerStep y ys).2).trans
          ((ih y).cons x)
      · simp only [innerStep, h, if_neg, not_false_iff]
        exact ((List.Perm.swap y (innerStep x ys).1 (innerStep x ys).2).trans
          ((ih x).cons y)).trans (List.Perm.swap x y ys)

theorem innerStep_fst_max (x : Execution) (l : List Execution) :
    ∀ e ∈ x :: l, e.startedAt ≤ (innerStep x l).1.startedAt := by
  induction l generalizing x with
  | nil =>
      intro e he
      simp [innerStep] at he ⊢
      simp [he]
  | cons y ys ih =>
      intro e he
      by_cases h : x.startedAt < y.startedAt
      · simp only [innerStep, h, if_pos]
        have hy := ih y
        rcases List.mem_cons.mp he with rfl | he2
        · exact le_trans (le_of_lt h) (hy y (List.mem_cons_self y ys))
        · exact hy e he2
      · simp only [innerStep, h, if_neg, not_false_iff]
        have hx := ih x
        rcases List.mem_cons.mp he with rfl | he2
        · exact hx _ (List.mem_cons_self _ ys)
        · rcases List.mem_cons.mp he2 with rfl | he3
          · exact le_trans (le_of_not_lt h) (hx x (List.mem_cons_self x ys))
          · exact hx e (List.mem_cons_of_mem x he3)

theorem exchSortFuel_perm :
    ∀ (n : Nat) (l : List Execution), l.length ≤ n →
      List.Perm (exchSortFuel n l) l := by
  intro n
  induction n with
  | zero =>
      intro l hl
      have : l = [] := List.eq_nil_of_length_eq_zero (Nat.le_zero.mp hl)
      subst this
      simp [exchSortFuel]
  | succ n ih =>
      intro l hl
      cases l with
      | nil => simp [exchSortFuel]
      | cons x xs =>
          simp only [exchSortFuel]
          have hlen : (innerStep x xs).2.length ≤ n := by
            rw [innerStep_snd_length]
            exact Nat.le_of_succ_le_succ hl
          exact ((ih (innerStep x xs).2 hlen).cons (innerStep x xs).1).trans
            (innerStep_perm x xs)

theorem exchSort_perm (l : List Execution) : List.Perm (exchSort l) l :=
  exchSortFuel_perm l.length l (le_refl _)

theorem exchSortFuel_sorted :
    ∀ (n : Nat) (l : List Execution), l.length ≤ n →
      List.Sorted (fun a b => b.startedAt ≤ a.startedAt) (exchSortFuel n l) := by
  intro n
  induction n with
  | zero =>
      intro l hl
      have : l = [] := List.eq_nil_of_length_eq_zero (Nat.le_zero.mp hl)
      subst this
      simp [exchSortFuel]
  | succ n ih =>
      intro l hl
      cases l with
      | nil => simp [exchSortFuel]
      | cons x xs =>
          simp only [exchSortFuel]
          have hlen : (innerStep x xs).2.length ≤ n := by
            rw [innerStep_snd_length]
            exact Nat.le_of_succ_le_succ hl
          rw [List.sorted_cons]
          constructor
          · intro b hb
            have hb2 : b ∈ (innerStep x xs).2 :=
              (exchSortFuel_perm n _ hlen).mem_iff.mp hb
            have hb3 : b ∈ (innerStep x xs).1 :: (innerStep x xs).2 :=
              List.mem_cons_of_mem _ hb2
            have hb4 : b ∈ x :: xs := (innerStep_perm x xs).mem_iff.mp hb3
            exact innerStep_fst_max x xs b hb4
          · exact ih _ hlen

theorem exchSort_sorted (l : List Execution) :
    List.Sorted (fun a b => b.startedAt ≤ a.startedAt) (exchSort l) :=
  exchSortFuel_sorted l.length l (le_refl _)

theorem decodeExec_encodeExec (e : Execution) : decodeExec (encodeExec e) = e := by
  rcases e with ⟨i, cid, n, w, c, s, o, ec, eb, sa, ea, d⟩
  unfold decodeExec encodeExec
  by_cases h1 : cid = "" <;> by_cases h2 : d = "" <;> simp [h1, h2]

theorem runCommandUpdate_id (ex : Execution) (res : RunResult)
    (so se : String) (t : Nat) :
    (runCommandUpdate ex res so se t).id = ex.id := by
  cases res <;> simp [runCommandUpdate]

theorem mem_keys_of_lookup (m : List (String × Execution)) (k : String)
    (e : Execution) (h : lookup m k = some e) :
    k ∈ m.map (fun p => p.1) := by
  unfold lookup at h
  cases hf : m.find? (fun p => p.1 == k) with
  | none => rw [hf] at h; simp at h
  | some pr =>
      have hm : pr ∈ m := List.mem_of_find?_eq_some hf
      have hk : pr.1 = k := by
        have := List.find?_some hf
        simpa using this
      exact hk ▸ List.mem_map_of_mem (fun p => p.1) hm

theorem keys_insertExec_sub (m : List (String × Execution)) (k k2 : String)
    (v : Execution) (h : k2 ∈ (insertExec m k v).map (fun p => p.1)) :
    k2 = k ∨ k2 ∈ m.map (fun p => p.1) := by
  unfold insertExec at h
  split at h
  · rw [List.map_map] at h
    rcases List.mem_map.mp h with ⟨p, hp, hpk⟩
    by_cases hc : p.1 = k
    · simp [hc] at hpk
      exact Or.inl hpk.symm
    · simp [hc] at hpk
      exact Or.inr (hpk ▸ List.mem_map_of_mem (fun p => p.1) hp)
  · rw [List.map_append] at h
    rcases List.mem_append.mp h with h2 | h2
    · exact Or.inr h2
    · simp at h2
      exact Or.inl h2

theorem keys_eraseExec_sub (m : List (String × Execution)) (k k2 : String)
    (h : k2 ∈ (eraseExec m k).map (fun p => p.1)) :
    k2 ∈ m.map (fun p => p.1) := by
  unfold eraseExec at h
  rcases List.mem_map.mp h with ⟨p, hp, hpk⟩
  exact hpk ▸ List.mem_map_of_mem (fun p => p.1) (List.mem_of_mem_filter hp)

theorem traceInv_init : TraceInv initState [] := by
  refine ⟨?_, ?_, ?_, ?_⟩ <;> intro k <;> simp [initState, execKeys, pendingIds, lookup]

theorem submitIds_append (t1 t2 : List Event) :
    submitIds (t1 ++ t2) = submitIds t1 ++ submitIds t2 := by
  induction t1 with
  | nil => simp [submitIds]
  | cons e rest ih => cases e <;> simp [submitIds, ih]

theorem step_submit_eq (st : EngineState) (i : String) (now : Nat)
    (wd cmd cid cname user : String) (saveOk : Bool) :
    step st (Event.submit i now wd cmd cid cname user saveOk) =
      { executions :=
          insertExec st.executions i (mkRunningExec i now wd cmd cid cname user)
        pending := st.pending ++ [(i, mkRunningExec i now wd cmd cid cname user)]
        persisted :=
          if saveOk then
            insertExec st.executions i (mkRunningExec i now wd cmd cid cname user)
          else st.persisted } := rfl

theorem step_delete_eq (st : EngineState) (id : String) (saveOk : Bool) :
    step st (Event.deleteOp id saveOk) = (DeleteExecution st id saveOk).2 := rfl

theorem step_clear_eq (st : EngineState) (saveOk : Bool) :
    step st (Event.clearOp saveOk) = ClearExecutions st saveOk := rfl

theorem step_complete_none (st : EngineState) (j : String) (res : RunResult)
    (so se : String) (t : Nat) (saveOk : Bool)
    (hf : st.pending.find? (fun p => p.1 == j) = none) :
    step st (Event.complete j res so se t saveOk) = st := by
  simp [step, hf]

theorem step_complete_some (st : EngineState) (j : String) (res : RunResult)
    (so se : String) (t : Nat) (saveOk : Bool) (pr : String × Execution)
    (hf : st.pending.find? (fun p => p.1 == j) = some pr) :
    step st (Event.complete j res so se t saveOk) =
      runCommand { st with pending := st.pending.filter (fun p => !(p.1 == j)) }
        pr.2 res so se t saveOk := by
  simp [step, hf]

theorem mem_map_fst_filter_sub (l : List (String × Execution))
    (f : String × Execution → Bool) (k : String)
    (h : k ∈ (l.filter f).map (fun p => p.1)) : k ∈ l.map (fun p => p.1) := by
  rcases List.mem_map.mp h with ⟨p, hp, hpk⟩
  exact hpk ▸ List.mem_map_of_mem (fun p => p.1) (List.mem_of_mem_filter hp)

theorem not_mem_map_fst_filter_self (l : List (String × Execution)) (j : String) :
    j ∉ (l.filter (fun p => !(p.1 == j))).map (fun p => p.1) := by
  intro h
  rcases List.mem_map.mp h with ⟨p, hp, hpk⟩
  have hf := List.of_mem_filter hp
  simp [hpk] at hf

theorem traceInv_step (st : EngineState) (used : List String) (e : Event)
    (hinv : TraceInv st used) :
    TraceInv (step st e) (used ++ submitIds [e]) := by
  obtain ⟨h1, h2, h3, h4⟩ := hinv
  cases e with
  | submit i now wd cmd cid cname user saveOk =>
      rw [step_submit_eq]
      have hu : submitIds [Event.submit i now wd cmd cid cname user saveOk] = [i] := rfl
      rw [hu]
      refine ⟨?_, ?_, ?_, ?_⟩
      · intro k hk
        rcases keys_insertExec_sub _ _ _ _ hk with rfl | hk2
        · simp
        · exact List.mem_append_left _ (h1 k hk2)
      · intro k hk
        simp only [pendingIds, List.map_append, List.map_cons, List.map_nil,
          List.mem_append, List.mem_cons, List.not_mem_nil, or_false] at hk
        rcases hk with hk2 | hk2
        · exact List.mem_append_left _ (h2 k hk2)
        · subst hk2; simp
      · intro p hp
        rcases List.mem_append.mp hp with hp2 | hp2
        · exact h3 p hp2
        · simp at hp2
          subst hp2
          rfl
      · intro k e2 hlook hterm
        by_cases hk : k = i
        · subst hk
          rw [lookup_insertExec_self] at hlook
          have he2 : e2 = mkRunningExec k now wd cmd cid cname user :=
            (Option.some.injEq _ _ ▸ hlook).symm
          rw [he2] at hterm
          simp [mkRunningExec, isTerminalStatus] at hterm
        · rw [lookup_insertExec_ne _ i k _ (Ne.symm hk)] at hlook
          have hnot := h4 k e2 hlook hterm
          intro hmem
          simp only [pendingIds, List.map_append, List.map_cons, List.map_nil,
            List.mem_append, List.mem_cons, List.not_mem_nil, or_false] at hmem
          rcases hmem with hm2 | hm2
          · exact hnot hm2
          · exact hk hm2
  | complete j res so se t saveOk =>
      have hu : submitIds [Event.complete j res so se t saveOk] = [] := rfl
      rw [hu, List.append_nil]
      cases hf : st.pending.find? (fun p => p.1 == j) with
      | none =>
          rw [step_complete_none st j res so se t saveOk hf]
          exact ⟨h1, h2, h3, h4⟩
      | some pr =>
          rw [step_complete_some st j res so se t saveOk pr hf]
          have hprm : pr ∈ st.pending := List.mem_of_find?_eq_some hf
          have hpr1 : pr.1 = j := by simpa using List.find?_some hf
          have hid : pr.2.id = j := by rw [h3 pr hprm, hpr1]
          have hkey : (runCommandUpdate pr.2 res so se t).id = j := by
            rw [runCommandUpdate_id]; exact hid
          have hjused : j ∈ used :=
            h2 j (hpr1 ▸ List.mem_map_of_mem (fun p => p.1) hprm)
          refine ⟨?_, ?_, ?_, ?_⟩
          · intro k hk
            simp only [runCommand, execKeys] at hk
            rcases keys_insertExec_sub _ _ _ _ hk with rfl | hk2
            · exact hkey ▸ hjused
            · exact h1 k hk2
          · intro k hk
            simp only [runCommand, pendingIds] at hk
            exact h2 k (mem_map_fst_filter_sub _ _ _ hk)
          · intro p hp
            simp only [runCommand] at hp
            exact h3 p (List.mem_of_mem_filter hp)
          · intro k e2 hlook hterm
            simp only [runCommand, pendingIds] at hlook ⊢
            by_cases hk : k = j
            · subst hk
              exact fun hmem => not_mem_map_fst_filter_self st.pending k hmem
            · rw [hkey, lookup_insertExec_ne _ j k _ (Ne.symm hk)] at hlook
              have hnot := h4 k e2 hlook hterm
              intro hmem
              exact hnot (mem_map_fst_filter_sub _ _ _ hmem)
  | deleteOp id saveOk =>
      have hu : submitIds [Event.deleteOp id saveOk] = [] := rfl
      rw [hu, List.append_nil, step_delete_eq]
      by_cases hc : (lookup st.executions id).isSome
      · simp only [DeleteExecution, hc, if_pos]
        refine ⟨?_, ?_, ?_, ?_⟩
        · intro k hk
          exact h1 k (keys_eraseExec_sub _ _ _ hk)
        · exact h2
        · exact h3
        · intro k e2 hlook hterm
          by_cases hk : k = id
          · subst hk
            rw [lookup_eraseExec_self] at hlook
            exact absurd hlook (by simp)
          · rw [lookup_eraseExec_ne _ id k (Ne.symm hk)] at hlook
            exact h4 k e2 hlook hterm
      · simp only [DeleteExecution, hc, if_neg, not_false_iff]
        exact ⟨h1, h2, h3, h4⟩
  | clearOp saveOk =>
      have hu : submitIds [Event.clearOp saveOk] = [] := rfl
      rw [hu, List.append_nil, step_clear_eq]
      refine ⟨?_, ?_, ?_, ?_⟩
      · intro k hk
        simp [ClearExecutions, execKeys] at hk
      · exact h2
      · exact h3
      · intro k e2 hlook hterm
        simp [ClearExecutions, lookup] at hlook

theorem traceInv_runTrace_aux :
    ∀ (t : List Event) (st : EngineState) (used : List String),
      TraceInv st used → TraceInv (runTrace st t) (used ++ submitIds t) := by
  intro t
  induction t with
  | nil =>
      intro st used h
      simpa [runTrace, submitIds] using h
  | cons e rest ih =>
      intro st used h
      have hstep := traceInv_step st used e h
      have hrest := ih (step st e) (used ++ submitIds [e]) hstep
      have hrw : runTrace st (e :: rest) = runTrace (step st e) rest := by
        simp [runTrace]
      have heq : used ++ submitIds [e] ++ submitIds rest =
          used ++ submitIds (e :: rest) := by
        rw [List.append_assoc, ← submitIds_append]
        rfl
      rw [hrw]
      rw [heq] at hrest
      exact hrest

theorem traceInv_runTrace (t : List Event) :
    TraceInv (runTrace initState t) (submitIds t) := by
  have := traceInv_runTrace_aux t initState [] traceInv_init
  simpa using this

theorem stable_aux (id s : String) :
    ∀ (t : List Event) (st : EngineState),
      (statusOf st id = some s ∨ statusOf st id = none) →
      id ∉ pendingIds st →
      (∀ p, p ∈ st.pending → p.2.id = p.1) →
      id ∉ submitIds t →
      statusOf (runTrace st t) id = some s ∨
        statusOf (runTrace st t) id = none := by
  intro t
  induction t with
  | nil =>
      intro st h1 _ _ _
      simpa [runTrace] using h1
  | cons e rest ih =>
      intro st h1 h2 h3 h4
      have hrw : runTrace st (e :: rest) = runTrace (step st e) rest := by
        simp [runTrace]
      rw [hrw]
      cases e with
      | submit i now wd cmd cid cname user saveOk =>
          have h4s : id ≠ i ∧ id ∉ submitIds rest := by
            constructor
            · intro hcon
              exact h4 (by simp [submitIds, hcon])
            · intro hcon
              exact h4 (by simp [submitIds, hcon])
          apply ih
          · rw [step_submit_eq]
            simp only [statusOf]
            rw [lookup_insertExec_ne _ i id _ (Ne.symm h4s.1)]
            exact h1
          · rw [step_submit_eq]
            simp only [pendingIds, List.map_append, List.map_cons, List.map_nil]
            intro hmem
            rcases List.mem_append.mp hmem with hm | hm
            · exact h2 hm
            · simp at hm
              exact h4s.1 hm
          · rw [step_submit_eq]
            intro p hp
            rcases List.mem_append.mp hp with hp2 | hp2
            · exact h3 p hp2
            · simp at hp2
              subst hp2
              rfl
          · exact h4s.2
      | complete j res so se t2 saveOk =>
          have h4r : id ∉ submitIds rest := by
            intro hcon
            exact h4 (by simp [submitIds, hcon])
          cases hf : st.pending.find? (fun p => p.1 == j) with
          | none =>
              rw [step_complete_none st j res so se t2 saveOk hf]
              exact ih st h1 h2 h3 h4r
          | some pr =>
              rw [step_complete_some st j res so se t2 saveOk pr hf]
              have hprm : pr ∈ st.pending := List.mem_of_find?_eq_some hf
              have hpr1 : pr.1 = j := by simpa using List.find?_some hf
              have hjne : j ≠ id := by
                intro hcon
                exact h2 (hcon ▸ hpr1 ▸ List.mem_map_of_mem (fun p => p.1) hprm)
              have hkey : (runCommandUpdate pr.2 res so se t2).id = j := by
                rw [runCommandUpdate_id, h3 pr hprm, hpr1]
              apply ih
              · simp only [runCommand, statusOf]
                rw [hkey, lookup_insertExec_ne _ j id _ hjne]
                exact h1
              · simp only [runCommand, pendingIds]
                intro hmem
                exact h2 (mem_map_fst_filter_sub _ _ _ hmem)
              · simp only [runCommand]
                intro p hp
                exact h3 p (List.mem_of_mem_filter hp)
              · exact h4r
      | deleteOp j saveOk =>
          have h4r : id ∉ submitIds rest := by
            intro hcon
            exact h4 (by simp [submitIds, hcon])
          rw [step_delete_eq]
          by_cases hc : (lookup st.executions j).isSome
          · simp only [DeleteExecution, hc, if_pos]
            apply ih
            · by_cases hk : j = id
              · subst hk
                simp only [statusOf]
                rw [lookup_eraseExec_self]
                exact Or.inr rfl
              · simp only [statusOf]
                rw [lookup_eraseExec_ne _ j id hk]
                exact h1
            · exact h2
            · exact h3
            · exact h4r
          · simp only [DeleteExecution, hc, if_neg, not_false_iff]
            exact ih st h1 h2 h3 h4r
      | clearOp saveOk =>
          have h4r : id ∉ submitIds rest := by
            intro hcon
            exact h4 (by simp [submitIds, hcon])
          rw [step_clear_eq]
          apply ih
          · simp [ClearExecutions, statusOf, lookup]
          · exact h2
          · exact h3
          · exact h4r

theorem string_length_pos (s : String) : (0 < s.length) ↔ s ≠ "" := by
  constructor
  · intro h hc
    subst hc
    simp at h
  · intro h
    cases s with
    | mk data =>
        cases data with
        | nil => simp at h
        | cons c cs => simp [String.length]

/-- C1: when the run-to-completion routine finishes, the terminal fields are
set from the process outcome: normal exit with code 0 gives status
`"success"` and exit code 0; normal nonzero exit gives status `"failed"` and
the process's real exit code; a launch failure gives status `"failed"`, the
sentinel exit code 1, and a diagnostic line `"\nError: <err>"` appended to
the combined output. -/
theorem runCommand_terminal_fields (ex : Execution) (res : RunResult)
    (stdout stderr : String) (endTime : Nat) :
    match res with
    | RunResult.success =>
        (runCommandUpdate ex res stdout stderr endTime).status = "success" ∧
        (runCommandUpdate ex res stdout stderr endTime).exitCode = 0
    | RunResult.exitError code =>
        (runCommandUpdate ex res stdout stderr endTime).status = "failed" ∧
        (runCommandUpdate ex res stdout stderr endTime).exitCode = code
    | RunResult.launchError msg =>
        (runCommandUpdate ex res stdout stderr endTime).status = "failed" ∧
        (runCommandUpdate ex res stdout stderr endTime).exitCode = 1 ∧
        (runCommandUpdate ex res stdout stderr endTime).output =
          combineOutput stdout stderr ++ "\nError: " ++ msg := by
  cases res <;> simp [runCommandUpdate]

/-- C2: the status of a record transitions at most once. Along any valid
trace (pairwise distinct submission ids, as `uuid.New()` guarantees), once a
reader observes a terminal status for an id, every later observation of that
id yields the same status or finds the record deleted — no record regresses
to `"running"` and no terminal status changes to another. -/
theorem status_transitions_at_most_once (t1 t2 : List Event) (id s : String)
    (hval : ValidTrace (t1 ++ t2))
    (hterm : statusOf (runTrace initState t1) id = some s)
    (hs : isTerminalStatus s = true) :
    statusOf (runTrace initState (t1 ++ t2)) id = some s ∨
      statusOf (runTrace initState (t1 ++ t2)) id = none := by
  have hsplit : runTrace initState (t1 ++ t2) =
      runTrace (runTrace initState t1) t2 := by
    simp [runTrace, List.foldl_append]
  rw [hsplit]
  obtain ⟨hk1, hk2, hk3, hk4⟩ := traceInv_runTrace t1
  have hex : ∃ ex, lookup (runTrace initState t1).executions id = some ex ∧
      ex.status = s := by
    unfold statusOf at hterm
    cases hl : lookup (runTrace initState t1).executions id with
    | none => rw [hl] at hterm; simp at hterm
    | some ex =>
        rw [hl] at hterm
        simp at hterm
        exact ⟨ex, rfl, hterm⟩
  obtain ⟨ex, hl, hst⟩ := hex
  have hkmem : id ∈ execKeys (runTrace initState t1) :=
    mem_keys_of_lookup _ _ _ hl
  have hsub1 : id ∈ submitIds t1 := hk1 id hkmem
  have hnodup : (submitIds t1 ++ submitIds t2).Nodup := by
    have hv := hval
    unfold ValidTrace at hv
    rwa [submitIds_append] at hv
  have hnot2 : id ∉ submitIds t2 :=
    (List.nodup_append.mp hnodup).2.2 hsub1
  have hpend : id ∉ pendingIds (runTrace initState t1) :=
    hk4 id ex hl (by rw [hst]; exact hs)
  exact stable_aux id s t2 _ (Or.inl hterm) hpend hk3 hnot2

/-- Witness for C2 at a concrete trace: submit `"a"`, complete it
successfully, then delete an unrelated id; the terminal status persists. -/
theorem status_transitions_at_most_once_witness :
    ValidTrace (c2t1 ++ c2t2) ∧
    statusOf (runTrace initState c2t1) "a" = some "success" ∧
    isTerminalStatus "success" = true ∧
    (statusOf (runTrace initState (c2t1 ++ c2t2)) "a" = some "success" ∨
      statusOf (runTrace initState (c2t1 ++ c2t2)) "a" = none) :=
  ⟨by decide, by decide, by decide,
    status_transitions_at_most_once c2t1 c2t2 "a" "success"
      (by decide) (by decide) (by decide)⟩

/-- C3: for every submission, `Execute` returns (synchronously — the process
outcome is not an input of `Execute`; completion is a separate later step) a
record whose status is `"running"`, whose id is the freshly generated
`newId`, whose working directory and command text are copies of the
submitted values and whose `startedAt` is the creation instant; the record
is already in the store, the snapshot containing it has been handed to the
persistence layer (durable when that save succeeds), and immediately after
the submit step readers observe the record as `"running"` while the spawned
process is still pending. -/
theorem execute_returns_running_record (st : EngineState) (newId : String)
    (now : Nat) (wd cmd cid cname user : String) (saveOk : Bool) :
    (Execute st newId now wd cmd cid cname user saveOk).1.status = "running" ∧
    (Execute st newId now wd cmd cid cname user saveOk).1.id = newId ∧
    (Execute st newId now wd cmd cid cname user saveOk).1.workdir = wd ∧
    (Execute st newId now wd cmd cid cname user saveOk).1.command = cmd ∧
    (Execute st newId now wd cmd cid cname user saveOk).1.startedAt = now ∧
    (Execute st newId now wd cmd cid cname user saveOk).1.commandID = cid ∧
    (Execute st newId now wd cmd cid cname user saveOk).1.name = cname ∧
    (Execute st newId now wd cmd cid cname user saveOk).1.executedBy = user ∧
    lookup (Execute st newId now wd cmd cid cname user saveOk).2.executions
      newId = some (Execute st newId now wd cmd cid cname user saveOk).1 ∧
    (Execute st newId now wd cmd cid cname user saveOk).2.persisted =
      (if saveOk then
        (Execute st newId now wd cmd cid cname user saveOk).2.executions
       else st.persisted) ∧
    statusOf (step st (Event.submit newId now wd cmd cid cname user saveOk))
      newId = some "running" := by
  refine ⟨rfl, rfl, rfl, rfl, rfl, rfl, rfl, rfl, ?_, rfl, ?_⟩
  · exact lookup_insertExec_self _ _ _
  · rw [step_submit_eq]
    simp only [statusOf]
    rw [lookup_insertExec_self]
    rfl

/-- C4: a submission is rejected with a validation error exactly when the
command text or the working directory is empty after trimming surrounding
whitespace; on rejection the handler answers with the error and creates no
record (the engine state is unchanged); otherwise validation passes and the
handler proceeds to execute. -/
theorem validation_gates_submission (st : EngineState) (newId : String)
    (now : Nat) (req : ExecuteRequest) (user : String) (saveOk : Bool) :
    (ValidateCommand req.workdir req.command = none ↔
      (req.command.trim ≠ "" ∧ req.workdir.trim ≠ "")) ∧
    (if req.command.trim = "" ∨ req.workdir.trim = "" then
      isErrResult (ExecuteHandler st newId now req user saveOk).1 = true ∧
        (ExecuteHandler st newId now req user saveOk).2 = st
     else
      isErrResult (ExecuteHandler st newId now req user saveOk).1 = false) := by
  constructor
  · unfold ValidateCommand
    by_cases h1 : req.command.trim = "" <;> by_cases h2 : req.workdir.trim = "" <;>
      simp [h1, h2]
  · by_cases h1 : req.command.trim = "" <;> by_cases h2 : req.workdir.trim = "" <;>
      simp [ExecuteHandler, ValidateCommand, isErrResult, h1, h2]

/-- C5 counterexample: when standard output is empty and standard error is
not, the code produces the bare standard-error content with no leading
newline, not the newline-prefixed text the claim describes. -/
theorem combineOutput_no_leading_newline_counterexample :
    combineOutput "" "boom" = "boom" ∧ combineOutput "" "boom" ≠ "\nboom" := by
  constructor
  · decide
  · decide

/-- C5 (amended): the combined output is all of standard output, then all of
standard error, with a single separating newline inserted only when both
parts are non-empty; in particular, empty standard output with non-empty
standard error yields the bare standard-error content, with no leading
newline. -/
theorem combineOutput_join_rule (stdout stderr : String) :
    combineOutput stdout stderr =
      (if stderr = "" then stdout
       else if stdout = "" then stderr
       else stdout ++ "\n" ++ stderr) := by
  unfold combineOutput
  by_cases h1 : stderr = ""
  · subst h1
    simp
  · have h1p : 0 < stderr.length := (string_length_pos stderr).mpr h1
    by_cases h2 : stdout = ""
    · subst h2
      simp [h1, h1p]
    · have h2p : 0 < stdout.length := (string_length_pos stdout).mpr h2
      simp [h1, h2, h1p, h2p]

/-- C6 counterexample: the claim quantifies over every limit, but for a
negative limit the listing cannot return records at all: even on an empty
store, `GetRecentExecutions` with limit `-1` reaches the out-of-bounds slice
`all[:limit]` and panics (modelled as `none`) instead of returning the
record sequence. -/
theorem getRecent_negative_limit_counterexample :
    GetRecentExecutions initState (-1) = none ∧
      GetRecentExecutions initState (-1) ≠ some [] := by
  constructor
  · decide
  · decide

/-- C6 (amended): `ListAll` returns all stored records sorted by `startedAt`
descending, and for every non-negative limit, `ListRecent(limit)` returns
the first `limit` records of that ordering (all of them when fewer than
`limit` exist); negative limits instead hit the out-of-bounds slice (C10). -/
theorem listAll_sorted_recent_amended (st : EngineState) (limit : Int)
    (h : 0 ≤ limit) :
    List.Perm (GetAllExecutions st) (st.executions.map (fun p => p.2)) ∧
    List.Sorted (fun a b => b.startedAt ≤ a.startedAt) (GetAllExecutions st) ∧
    GetRecentExecutions st limit =
      some ((GetAllExecutions st).take limit.toNat) := by
  refine ⟨exchSort_perm _, exchSort_sorted _, ?_⟩
  simp only [GetRecentExecutions]
  by_cases hc : ((GetAllExecutions st).length : Int) ≤ limit
  · rw [if_pos hc]
    have hlen : (GetAllExecutions st).length ≤ limit.toNat := by
      rwa [Int.le_toNat h]
    rw [List.take_of_length_le hlen]
  · rw [if_neg hc, if_pos h]

/-- Witness for C6 (amended) at a concrete two-record store with limit 1. -/
theorem listAll_sorted_recent_amended_witness :
    0 ≤ (1 : Int) ∧
    (List.Perm (GetAllExecutions stC6) (stC6.executions.map (fun p => p.2)) ∧
     List.Sorted (fun a b => b.startedAt ≤ a.startedAt) (GetAllExecutions stC6) ∧
     GetRecentExecutions stC6 1 =
       some ((GetAllExecutions stC6).take (1 : Int).toNat)) :=
  ⟨by decide, listAll_sorted_recent_amended stC6 1 (by decide)⟩

/-- C7 counterexample: a record from before the clear becomes observable
again. Submitting `"a"`, then clearing while it runs, leaves the store
empty; but when the still-running execution completes, its completion
routine re-inserts the record (executor.go line 96), so a reader observes
the pre-clear record `"a"` terminal in the store after the clear. -/
theorem cleared_record_resurrects_counterexample :
    (runTrace initState c7pre).executions = [] ∧
    statusOf (runTrace initState c7trace) "a" = some "success" := by
  constructor
  · decide
  · decide

/-- C7 (amended): immediately after `ClearExecutions` the store is empty —
`ListAll` returns the empty sequence — and, when the accompanying save
succeeds, the empty set is persisted; however, an execution still running at
clear time is re-inserted into the store by its completion routine, so
pre-clear records can become observable again (see the counterexample). -/
theorem clearExecutions_empties_store (st : EngineState) (saveOk : Bool) :
    (ClearExecutions st saveOk).executions = [] ∧
    GetAllExecutions (ClearExecutions st saveOk) = [] ∧
    (ClearExecutions st saveOk).persisted =
      (if saveOk then [] else st.persisted) := by
  refine ⟨rfl, ?_, rfl⟩
  simp [GetAllExecutions, ClearExecutions, exchSort, exchSortFuel]

/-- C8: persisting the execution mapping and loading it back reproduces every
record field exactly, including the presence or absence of the optional
members (`command_id` and `duration` are omitted exactly when empty and
restored to the zero value; `name` and `ended_at` are always present): the
loaded mapping equals the saved one. -/
theorem saveExecutions_loadExecutions_roundtrip
    (m : List (String × Execution)) :
    LoadExecutions (SaveExecutions m) = m := by
  induction m with
  | nil => rfl
  | cons p t ih =>
      simpa [SaveExecutions, LoadExecutions, decodeExec_encodeExec] using ih

/-- C9 counterexample: deleting record `"a"` while the save fails still
reports `true` (the same success indication as when the save works) to the
caller — no failure is reported — even though the durable snapshot still
contains the record while the in-memory store no longer does. -/
theorem delete_save_failure_unreported_counterexample :
    (DeleteExecution stC9 "a" false).1 = true ∧
    (DeleteExecution stC9 "a" false).2.executions = [] ∧
    (DeleteExecution stC9 "a" false).2.persisted = [("a", exA)] := by
  refine ⟨?_, ?_, ?_⟩ <;> decide

/-- C9 (amended): delete, clear and the completion mutation keep the
in-memory mutation whether or not the underlying save succeeds (no
rollback), but a save failure is not reported to the caller: delete returns
only whether the record existed (identical result either way), and clear and
the completion routine return nothing, leaving the durable snapshot stale. -/
theorem mutations_ignore_save_failure (st : EngineState) (id : String)
    (ex : Execution) (res : RunResult) (so se : String) (t : Nat) :
    (DeleteExecution st id false).1 = (DeleteExecution st id true).1 ∧
    (DeleteExecution st id false).2.executions =
      (DeleteExecution st id true).2.executions ∧
    (DeleteExecution st id false).2.persisted = st.persisted ∧
    (ClearExecutions st false).executions = [] ∧
    (ClearExecutions st false).persisted = st.persisted ∧
    (runCommand st ex res so se t false).executions =
      (runCommand st ex res so se t true).executions ∧
    (runCommand st ex res so se t false).persisted = st.persisted := by
  refine ⟨?_, ?_, ?_, rfl, rfl, rfl, rfl⟩ <;>
    · unfold DeleteExecution
      by_cases hc : (lookup st.executions id).isSome <;> simp [hc]

/-- C10: `GetRecentExecutions` returns normally exactly when its limit is
non-negative; for every negative limit the slice expression `all[:limit]` is
out of bounds and the call panics at runtime (modelled as `none`), even on
an empty store. -/
theorem getRecentExecutions_safe_iff_nonneg (st : EngineState) (limit : Int) :
    (GetRecentExecutions st limit).isSome = true ↔ 0 ≤ limit := by
  simp only [GetRecentExecutions]
  by_cases hc : ((GetAllExecutions st).length : Int) ≤ limit
  · simp only [hc, if_pos, Option.isSome_some, true_iff]
    exact le_trans (Int.natCast_nonneg _) hc
  · by_cases h0 : 0 ≤ limit <;> simp [hc, h0]
